import Mathlib

/-!
Shallow embedding of the hexl number-theory header
(src/hexl/include/hexl/number-theory/number-theory.hpp).

Machine words (uint64_t) are modelled as natural numbers; every place where
the C code truncates to 64 bits carries an explicit `% 2 ^ 64`.  Functions
guarded by HEXL_CHECK assertions return `Option Nat`, with `none` for a
failed check.  Helper primitives that live outside the given source tree
(MSB, MultiplyUInt64, MultiplyUInt64Hi, DivideUInt128UInt64Lo, HEXL_CHECK)
are modelled from the specification, as marked in their doc comments.
-/

namespace Hexl

/-- Modelled from the spec: fuel-bounded helper computing the position of the
most significant bit (floor of log base 2); 64 iterations suffice for any
64-bit word. -/
def msbAux : Nat → Nat → Nat
  | 0, _ => 0
  | fuel + 1, x => if x < 2 then 0 else msbAux fuel (x / 2) + 1

/-- Modelled from the spec: `MSB` returns the 0-indexed position of the
highest set bit of a 64-bit word (glossary: floor log base 2). -/
def MSB (x : Nat) : Nat := msbAux 64 x

/-- Source `Log2`: returns floor(log2(x)) via `MSB`. -/
def Log2 (x : Nat) : Nat := MSB x

/-- uint64 wraparound subtraction: the value of the C expression `a - b` on
uint64 operands, as a natural number. -/
def sub64 (a b : Nat) : Nat := (a % 2 ^ 64 + (2 ^ 64 - b % 2 ^ 64)) % 2 ^ 64

/-- Modelled from the spec: `MultiplyUInt64` (WideMultiply, spec section 4.1)
produces the exact 128-bit product of two 64-bit operands as a
(high word, low word) pair. -/
def MultiplyUInt64 (x y : Nat) : Nat × Nat :=
  ((x * y) / 2 ^ 64, (x * y) % 2 ^ 64)

/-- Modelled from the spec: restricted WideMultiply form returning only the
word of the product above `bitShift` bits, as a uint64. -/
def MultiplyUInt64Hi (bitShift x y : Nat) : Nat :=
  ((x * y) / 2 ^ bitShift) % 2 ^ 64

/-- Modelled from the spec: 128-by-64 division primitive (spec section 4.2);
returns the low 64-bit word of the quotient of the 128-bit value
`hi * 2^64 + lo` by `m`. -/
def DivideUInt128UInt64Lo (hi lo m : Nat) : Nat :=
  ((hi * 2 ^ 64 + lo) / m) % 2 ^ 64

/-- Source class `MultiplyFactor`: stores an operand together with its
precomputed Barrett factor. -/
structure MultiplyFactor where
  m_operand : Nat
  m_barrett_factor : Nat
deriving DecidableEq

/-- Source `MultiplyFactor` constructor; `none` models a HEXL_CHECK failure. -/
def MultiplyFactor.make (operand bit_shift modulus : Nat) : Option MultiplyFactor :=
  if operand ≤ modulus then
    if bit_shift = 32 ∨ bit_shift = 52 ∨ bit_shift = 64 then
      let op_hi := operand / 2 ^ (64 - bit_shift)
      let op_lo := if bit_shift = 64 then 0 else (operand * 2 ^ bit_shift) % 2 ^ 64
      some ⟨operand, DivideUInt128UInt64Lo op_hi op_lo modulus⟩
    else none
  else none

/-- Source accessor `MultiplyFactor::BarrettFactor`. -/
def MultiplyFactor.BarrettFactor (f : MultiplyFactor) : Nat := f.m_barrett_factor

/-- Source accessor `MultiplyFactor::Operand`. -/
def MultiplyFactor.Operand (f : MultiplyFactor) : Nat := f.m_operand

/-- Source `MaximumValue`: largest value representable in `bits` bits;
`none` models the HEXL_CHECK failure for `bits > 64`. -/
def MaximumValue (bits : Nat) : Option Nat :=
  if bits ≤ 64 then
    if bits = 64 then some (2 ^ 64 - 1) else some (2 ^ bits - 1)
  else none

/-- Source `MultiplyModLazy<BitShift>(x, y_operand, y_barrett_factor, modulus)`
(the precomputed-factor overload); `none` models a HEXL_CHECK failure. -/
def MultiplyModLazy (bitShift x y_operand y_barrett_factor modulus : Nat) : Option Nat :=
  match MaximumValue bitShift with
  | none => none
  | some maxv =>
    if y_operand < modulus then
      if modulus ≤ maxv then
        if x ≤ maxv then
          let Q := MultiplyUInt64Hi bitShift x y_barrett_factor
          some (sub64 (y_operand * x) (Q * modulus))
        else none
      else none
    else none

/-- Source `MultiplyModLazy<BitShift>(x, y, modulus)` (the overload that
derives the Barrett factor on the fly); `none` models a HEXL_CHECK failure. -/
def MultiplyModLazy2 (bitShift x y modulus : Nat) : Option Nat :=
  if bitShift = 64 ∨ bitShift = 52 then
    match MaximumValue bitShift with
    | none => none
    | some maxv =>
      if x ≤ maxv then
        if y < modulus then
          if modulus ≤ maxv then
            match MultiplyFactor.make y bitShift modulus with
            | none => none
            | some mf => MultiplyModLazy bitShift x y mf.BarrettFactor modulus
          else none
        else none
      else none
  else none

/-- Source `AddUInt64`: returns (carry bit, sum stored through the result
pointer). -/
def AddUInt64 (operand1 operand2 : Nat) : Nat × Nat :=
  let result := (operand1 + operand2) % 2 ^ 64
  (if result < operand1 then 1 else 0, result)

/-- Source `BarrettReduce64<OutputModFactor>(input, modulus, q_barr)`;
`none` models the HEXL_CHECK failure for a zero modulus. -/
def BarrettReduce64 (outputModFactor input modulus q_barr : Nat) : Option Nat :=
  if modulus = 0 then none
  else
    let q := MultiplyUInt64Hi 64 input q_barr
    let q_times_input := sub64 input (q * modulus)
    if outputModFactor = 2 then some q_times_input
    else some (if modulus ≤ q_times_input then q_times_input - modulus else q_times_input)

/-- Source `ReduceMod<InputModFactor>(x, modulus, twice_modulus,
four_times_modulus)`; the nullable pointers are modelled as `Option Nat` and
`none` results model HEXL_CHECK failures. -/
def ReduceMod (inputModFactor x modulus : Nat)
    (twice_modulus four_times_modulus : Option Nat) : Option Nat :=
  if inputModFactor = 1 ∨ inputModFactor = 2 ∨ inputModFactor = 4 ∨ inputModFactor = 8 then
    if inputModFactor = 1 then some x
    else if inputModFactor = 2 then
      some (if modulus ≤ x then x - modulus else x)
    else if inputModFactor = 4 then
      match twice_modulus with
      | none => none
      | some tm =>
        let x1 := if tm ≤ x then x - tm else x
        some (if modulus ≤ x1 then x1 - modulus else x1)
    else
      match twice_modulus with
      | none => none
      | some tm =>
        match four_times_modulus with
        | none => none
        | some fm =>
          let x1 := if fm ≤ x then x - fm else x
          let x2 := if tm ≤ x1 then x1 - tm else x1
          some (if modulus ≤ x2 then x2 - modulus else x2)
  else none

/-- Source class `Modulus`: precomputed Barrett parameters for one modulus. -/
structure Modulus where
  m_modulus : Nat
  m_barr_lo : Nat
  m_prod_right_shift : Nat
deriving DecidableEq

/-- Source `Modulus::Initialize` (reached from both the converting
constructor and `operator=`); `none` models a HEXL_CHECK failure inside the
`MultiplyFactor` computation. -/
def Modulus.init (value : Nat) : Option Modulus :=
  let ceil_log_mod := Log2 value + 1
  let prs := ceil_log_mod - 2
  (MultiplyFactor.make (2 ^ (ceil_log_mod + 62 - 64)) 64 value).map
    fun mf => ⟨value, mf.m_barrett_factor, prs⟩

/-- Source accessor `Modulus::Value`. -/
def Modulus.Value (m : Modulus) : Nat := m.m_modulus

/-- Source accessor `Modulus::BarrettFactor`. -/
def Modulus.BarrettFactor (m : Modulus) : Nat := m.m_barr_lo

/-- Source accessor `Modulus::RightShift`. -/
def Modulus.RightShift (m : Modulus) : Nat := m.m_prod_right_shift

/-- Source `BarrettReduce128(x_hi, x_lo, mod)`. -/
def BarrettReduce128 (x_hi x_lo : Nat) (mod : Modulus) : Nat :=
  let c1 := (x_lo / 2 ^ mod.RightShift + x_hi * 2 ^ (64 - mod.RightShift)) % 2 ^ 64
  let c2 := MultiplyUInt64 c1 mod.BarrettFactor
  let q_hat := c2.1
  let Z := sub64 x_lo (q_hat * mod.Value)
  if mod.Value ≤ Z then Z - mod.Value else Z

/-- Source `MultiplyMod(x, y, mod)`: full 128-bit product followed by
`BarrettReduce128`. -/
def MultiplyMod (x y : Nat) (mod : Modulus) : Nat :=
  let p := MultiplyUInt64 x y
  BarrettReduce128 p.1 p.2 mod

/-! ### Helper lemmas -/

theorem msbAux_spec : ∀ (fuel x : Nat), 0 < x → x < 2 ^ fuel →
    2 ^ msbAux fuel x ≤ x ∧ x < 2 ^ (msbAux fuel x + 1)
  | 0, x, hx, hlt => by norm_num at hlt; omega
  | fuel + 1, x, hx, hlt => by
    show 2 ^ (if x < 2 then 0 else msbAux fuel (x / 2) + 1) ≤ x ∧
      x < 2 ^ ((if x < 2 then 0 else msbAux fuel (x / 2) + 1) + 1)
    by_cases h2 : x < 2
    · rw [if_pos h2]; norm_num; omega
    · rw [if_neg h2]
      have hx2 : 0 < x / 2 := Nat.div_pos (by omega) (by norm_num)
      have hlt2 : x / 2 < 2 ^ fuel := by
        rw [Nat.div_lt_iff_lt_mul (by norm_num)]
        calc x < 2 ^ (fuel + 1) := hlt
          _ = 2 ^ fuel * 2 := by rw [pow_succ]
      obtain ⟨ih1, ih2⟩ := msbAux_spec fuel (x / 2) hx2 hlt2
      have e1 : 2 ^ (msbAux fuel (x / 2) + 1) = 2 ^ msbAux fuel (x / 2) * 2 := pow_succ 2 _
      have e2 : 2 ^ (msbAux fuel (x / 2) + 1 + 1) = 2 ^ (msbAux fuel (x / 2) + 1) * 2 :=
        pow_succ 2 _
      omega

theorem MSB_spec (x : Nat) (hx : 0 < x) (hlt : x < 2 ^ 64) :
    2 ^ MSB x ≤ x ∧ x < 2 ^ (MSB x + 1) :=
  msbAux_spec 64 x hx hlt

theorem MSB_eq_log2 (x : Nat) (hx : 0 < x) (hlt : x < 2 ^ 64) : MSB x = Nat.log2 x := by
  obtain ⟨h1, h2⟩ := MSB_spec x hx hlt
  rw [Nat.log2_eq_log_two, Nat.log_eq_of_pow_le_of_lt_pow h1 h2]

theorem sub64_eq (a t V : Nat) (hV : V < 2 ^ 64) (h : (V + t) % 2 ^ 64 = a % 2 ^ 64) :
    sub64 a t = V := by
  have hN : (2 : Nat) ^ 64 = 18446744073709551616 := by norm_num
  simp only [sub64, hN] at *
  omega

theorem sub64_of_le (a t : Nat) (ha : a < 2 ^ 64) (ht : t ≤ a) : sub64 a t = a - t :=
  sub64_eq a t (a - t) (by omega) (by rw [Nat.sub_add_cancel ht])

theorem condSub_eq_mod (a m : Nat) (h : a < 2 * m) :
    (if m ≤ a then a - m else a) = a % m := by
  by_cases hle : m ≤ a
  · rw [if_pos hle, Nat.mod_eq_sub_mod hle, Nat.mod_eq_of_lt (by omega)]
  · rw [if_neg hle, Nat.mod_eq_of_lt (by omega)]

theorem sub_multiple_mod (x m k : Nat) (h : k * m ≤ x) : (x - k * m) % m = x % m := by
  conv_rhs => rw [← Nat.sub_add_cancel h]
  rw [Nat.add_mul_mod_self_right]

theorem shift_split (op bs : Nat) (h : bs ≤ 64) :
    op / 2 ^ (64 - bs) * 2 ^ 64 + op * 2 ^ bs % 2 ^ 64 = op * 2 ^ bs := by
  have e : (2 : Nat) ^ 64 = 2 ^ (64 - bs) * 2 ^ bs := by
    rw [← pow_add]
    congr 1
    omega
  have h1 : op * 2 ^ bs / 2 ^ 64 = op / 2 ^ (64 - bs) := by
    rw [e, Nat.mul_div_mul_right _ _ (pow_pos (by norm_num) bs)]
  calc op / 2 ^ (64 - bs) * 2 ^ 64 + op * 2 ^ bs % 2 ^ 64
      = op * 2 ^ bs / 2 ^ 64 * 2 ^ 64 + op * 2 ^ bs % 2 ^ 64 := by rw [h1]
    _ = op * 2 ^ bs := Nat.div_add_mod' _ _

theorem make_eq (operand bit_shift modulus : Nat)
    (hop : operand ≤ modulus)
    (hbs : bit_shift = 32 ∨ bit_shift = 52 ∨ bit_shift = 64) :
    MultiplyFactor.make operand bit_shift modulus
      = some ⟨operand, operand * 2 ^ bit_shift / modulus % 2 ^ 64⟩ := by
  have hbs64 : bit_shift ≤ 64 := by rcases hbs with h | h | h <;> omega
  simp only [MultiplyFactor.make, if_pos hop, if_pos hbs, DivideUInt128UInt64Lo]
  by_cases h64 : bit_shift = 64
  · subst h64
    norm_num
  · rw [if_neg h64, shift_split operand bit_shift hbs64]

theorem factor_no_trunc (operand bit_shift modulus : Nat)
    (hop : operand < modulus) (hbs : bit_shift ≤ 64) :
    operand * 2 ^ bit_shift / modulus % 2 ^ 64 = operand * 2 ^ bit_shift / modulus := by
  apply Nat.mod_eq_of_lt
  have h1 : operand * 2 ^ bit_shift / modulus < 2 ^ bit_shift := by
    rw [Nat.div_lt_iff_lt_mul (by omega)]
    have := Nat.mul_lt_mul_of_pos_right hop (pow_pos (show (0:Nat) < 2 by norm_num) bit_shift)
    calc operand * 2 ^ bit_shift < modulus * 2 ^ bit_shift := this
      _ = 2 ^ bit_shift * modulus := Nat.mul_comm _ _
  exact lt_of_lt_of_le h1 (Nat.pow_le_pow_right (by norm_num) hbs)

theorem MSB_pos (m : Nat) (hm : 2 ≤ m) (hm64 : m < 2 ^ 64) : 1 ≤ MSB m := by
  obtain ⟨_, hb2⟩ := MSB_spec m (by omega) hm64
  by_contra h
  have h0 : MSB m = 0 := by omega
  rw [h0] at hb2
  norm_num at hb2
  omega

theorem modulus_mu_le (m : Nat) (hm : 2 ≤ m) (hm64 : m < 2 ^ 64) :
    2 ^ (MSB m - 1) * 2 ^ 64 / m ≤ 2 ^ 63 := by
  obtain ⟨hb1, _⟩ := MSB_spec m (by omega) hm64
  have hk := MSB_pos m hm hm64
  calc 2 ^ (MSB m - 1) * 2 ^ 64 / m ≤ 2 ^ (MSB m - 1) * 2 ^ 64 / 2 ^ MSB m :=
        Nat.div_le_div_left hb1 (pow_pos (by norm_num) _)
    _ = 2 ^ (MSB m - 1 + 64) / 2 ^ MSB m := by rw [← pow_add]
    _ = 2 ^ (MSB m - 1 + 64 - MSB m) := Nat.pow_div (by omega) (by norm_num)
    _ = 2 ^ 63 := by congr 1; omega

theorem init_eq (m : Nat) (hm : 2 ≤ m) (hm64 : m < 2 ^ 64) :
    Modulus.init m = some ⟨m, 2 ^ (MSB m - 1) * 2 ^ 64 / m, MSB m - 1⟩ := by
  obtain ⟨hb1, hb2⟩ := MSB_spec m (by omega) hm64
  have hk := MSB_pos m hm hm64
  have hexp : MSB m + 1 + 62 - 64 = MSB m - 1 := by omega
  have hople : 2 ^ (MSB m - 1) ≤ m :=
    le_trans (Nat.pow_le_pow_right (by norm_num) (by omega)) hb1
  have hmu := modulus_mu_le m hm hm64
  simp only [Modulus.init, Log2, hexp]
  rw [make_eq _ _ _ hople (Or.inr (Or.inr rfl))]
  simp only [Option.map_some']
  congr 2
  exact Nat.mod_eq_of_lt (by
    calc 2 ^ (MSB m - 1) * 2 ^ 64 / m ≤ 2 ^ 63 := hmu
      _ < 2 ^ 64 := by norm_num)

theorem barrett_error_bound (m d r0 r1 r2 c1 : Nat) (hd0 : 0 < d) (hm0 : 0 < m)
    (hr0 : r0 < d) (hr1 : r1 < m) (hr2 : r2 < 2 ^ 64) (hc1 : c1 ≤ 2 ^ 63)
    (h2d : 2 * d ≤ m) :
    r2 * m + c1 * r1 + r0 * 2 ^ 64 < 2 * m * 2 ^ 64 := by
  have b1 : r2 * m ≤ (2 ^ 64 - 1) * m := Nat.mul_le_mul_right _ (by omega)
  have b2 : c1 * r1 ≤ 2 ^ 63 * (m - 1) := Nat.mul_le_mul hc1 (by omega)
  have b3 : r0 * 2 ^ 64 ≤ (d - 1) * 2 ^ 64 := Nat.mul_le_mul_right _ (by omega)
  have hd2 : d * 2 ^ 64 ≤ m * 2 ^ 63 := by
    have h1 : 2 * d * 2 ^ 63 ≤ m * 2 ^ 63 := Nat.mul_le_mul_right _ h2d
    calc d * 2 ^ 64 = 2 * d * 2 ^ 63 := by ring
      _ ≤ m * 2 ^ 63 := h1
  have h63 : (2 : Nat) ^ 63 = 9223372036854775808 := by norm_num
  have h64 : (2 : Nat) ^ 64 = 18446744073709551616 := by norm_num
  rw [h63, h64] at *
  omega

theorem barrett_qhat_bounds (m n U : Nat) (hn : 2 ≤ n)
    (hml : 2 ^ (n - 1) ≤ m) (_hmu : m < 2 ^ n)
    (hc1 : U / 2 ^ (n - 2) ≤ 2 ^ 63) :
    U / 2 ^ (n - 2) * (2 ^ (n - 2) * 2 ^ 64 / m) / 2 ^ 64 * m ≤ U ∧
      U < U / 2 ^ (n - 2) * (2 ^ (n - 2) * 2 ^ 64 / m) / 2 ^ 64 * m + 2 * m := by
  have hm0 : 0 < m := lt_of_lt_of_le (pow_pos (by norm_num) _) hml
  have hd0 : 0 < 2 ^ (n - 2) := pow_pos (by norm_num) _
  have hN0 : 0 < 2 ^ 64 := by norm_num
  have h2d : 2 * 2 ^ (n - 2) ≤ m := by
    have e : 2 * 2 ^ (n - 2) = 2 ^ (n - 1) := by
      rw [← pow_succ']
      congr 1
      omega
    omega
  -- abbreviations (kept as plain terms so the statement stays readable)
  have hA : U / 2 ^ (n - 2) * (2 ^ (n - 2) * 2 ^ 64 / m) / 2 ^ 64 * 2 ^ 64
      ≤ U / 2 ^ (n - 2) * (2 ^ (n - 2) * 2 ^ 64 / m) := Nat.div_mul_le_self _ _
  have hB : 2 ^ (n - 2) * 2 ^ 64 / m * m ≤ 2 ^ (n - 2) * 2 ^ 64 := Nat.div_mul_le_self _ _
  have hC : U / 2 ^ (n - 2) * 2 ^ (n - 2) ≤ U := Nat.div_mul_le_self _ _
  constructor
  · -- lower bound: q_hat * m ≤ U
    have step : U / 2 ^ (n - 2) * (2 ^ (n - 2) * 2 ^ 64 / m) / 2 ^ 64 * m * 2 ^ 64
        ≤ U * 2 ^ 64 := by
      calc U / 2 ^ (n - 2) * (2 ^ (n - 2) * 2 ^ 64 / m) / 2 ^ 64 * m * 2 ^ 64
          = U / 2 ^ (n - 2) * (2 ^ (n - 2) * 2 ^ 64 / m) / 2 ^ 64 * 2 ^ 64 * m := by ring
        _ ≤ U / 2 ^ (n - 2) * (2 ^ (n - 2) * 2 ^ 64 / m) * m := Nat.mul_le_mul_right _ hA
        _ = U / 2 ^ (n - 2) * (2 ^ (n - 2) * 2 ^ 64 / m * m) := by ring
        _ ≤ U / 2 ^ (n - 2) * (2 ^ (n - 2) * 2 ^ 64) := Nat.mul_le_mul_left _ hB
        _ = U / 2 ^ (n - 2) * 2 ^ (n - 2) * 2 ^ 64 := by ring
        _ ≤ U * 2 ^ 64 := Nat.mul_le_mul_right _ hC
    exact Nat.le_of_mul_le_mul_right step hN0
  · -- upper bound: U < q_hat * m + 2 * m
    have e1 : U / 2 ^ (n - 2) * 2 ^ (n - 2) + U % 2 ^ (n - 2) = U := Nat.div_add_mod' U _
    have e2 : 2 ^ (n - 2) * 2 ^ 64 / m * m + 2 ^ (n - 2) * 2 ^ 64 % m
        = 2 ^ (n - 2) * 2 ^ 64 := Nat.div_add_mod' _ m
    have e3 : U / 2 ^ (n - 2) * (2 ^ (n - 2) * 2 ^ 64 / m) / 2 ^ 64 * 2 ^ 64
        + U / 2 ^ (n - 2) * (2 ^ (n - 2) * 2 ^ 64 / m) % 2 ^ 64
        = U / 2 ^ (n - 2) * (2 ^ (n - 2) * 2 ^ 64 / m) := Nat.div_add_mod' _ _
    have hr0 : U % 2 ^ (n - 2) < 2 ^ (n - 2) := Nat.mod_lt _ hd0
    have hr1 : 2 ^ (n - 2) * 2 ^ 64 % m < m := Nat.mod_lt _ hm0
    have hr2 : U / 2 ^ (n - 2) * (2 ^ (n - 2) * 2 ^ 64 / m) % 2 ^ 64 < 2 ^ 64 :=
      Nat.mod_lt _ hN0
    have key : U * 2 ^ 64
        = U / 2 ^ (n - 2) * (2 ^ (n - 2) * 2 ^ 64 / m) / 2 ^ 64 * m * 2 ^ 64
          + (U / 2 ^ (n - 2) * (2 ^ (n - 2) * 2 ^ 64 / m) % 2 ^ 64 * m
            + U / 2 ^ (n - 2) * (2 ^ (n - 2) * 2 ^ 64 % m)
            + U % 2 ^ (n - 2) * 2 ^ 64) := by
      calc U * 2 ^ 64
          = (U / 2 ^ (n - 2) * 2 ^ (n - 2) + U % 2 ^ (n - 2)) * 2 ^ 64 := by rw [e1]
        _ = U / 2 ^ (n - 2) * (2 ^ (n - 2) * 2 ^ 64) + U % 2 ^ (n - 2) * 2 ^ 64 := by ring
        _ = U / 2 ^ (n - 2) * (2 ^ (n - 2) * 2 ^ 64 / m * m + 2 ^ (n - 2) * 2 ^ 64 % m)
            + U % 2 ^ (n - 2) * 2 ^ 64 := by rw [e2]
        _ = U / 2 ^ (n - 2) * (2 ^ (n - 2) * 2 ^ 64 / m) * m
            + U / 2 ^ (n - 2) * (2 ^ (n - 2) * 2 ^ 64 % m)
            + U % 2 ^ (n - 2) * 2 ^ 64 := by ring
        _ = (U / 2 ^ (n - 2) * (2 ^ (n - 2) * 2 ^ 64 / m) / 2 ^ 64 * 2 ^ 64
              + U / 2 ^ (n - 2) * (2 ^ (n - 2) * 2 ^ 64 / m) % 2 ^ 64) * m
            + U / 2 ^ (n - 2) * (2 ^ (n - 2) * 2 ^ 64 % m)
            + U % 2 ^ (n - 2) * 2 ^ 64 := by rw [e3]
        _ = _ := by ring
    have bound : U / 2 ^ (n - 2) * (2 ^ (n - 2) * 2 ^ 64 / m) % 2 ^ 64 * m
        + U / 2 ^ (n - 2) * (2 ^ (n - 2) * 2 ^ 64 % m)
        + U % 2 ^ (n - 2) * 2 ^ 64 < 2 * m * 2 ^ 64 :=
      barrett_error_bound m (2 ^ (n - 2)) (U % 2 ^ (n - 2)) (2 ^ (n - 2) * 2 ^ 64 % m)
        (U / 2 ^ (n - 2) * (2 ^ (n - 2) * 2 ^ 64 / m) % 2 ^ 64) (U / 2 ^ (n - 2))
        hd0 hm0 hr0 hr1 hr2 hc1 h2d
    have final : U * 2 ^ 64
        < (U / 2 ^ (n - 2) * (2 ^ (n - 2) * 2 ^ 64 / m) / 2 ^ 64 * m + 2 * m) * 2 ^ 64 := by
      rw [key]
      have expand : (U / 2 ^ (n - 2) * (2 ^ (n - 2) * 2 ^ 64 / m) / 2 ^ 64 * m + 2 * m)
          * 2 ^ 64
          = U / 2 ^ (n - 2) * (2 ^ (n - 2) * 2 ^ 64 / m) / 2 ^ 64 * m * 2 ^ 64
            + 2 * m * 2 ^ 64 := by ring
      rw [expand]
      omega
    exact Nat.lt_of_mul_lt_mul_right final

theorem barrettReduce128_eq (m x_hi x_lo : Nat) (hm : 2 ≤ m) (hm63 : m ≤ 2 ^ 63)
    (hhi : x_hi < 2 ^ 64) (hlo : x_lo < 2 ^ 64)
    (happ : (x_hi * 2 ^ 64 + x_lo) / 2 ^ (MSB m - 1) ≤ 2 ^ 63) :
    BarrettReduce128 x_hi x_lo ⟨m, 2 ^ (MSB m - 1) * 2 ^ 64 / m, MSB m - 1⟩
      = (x_hi * 2 ^ 64 + x_lo) % m := by
  have hm64 : m < 2 ^ 64 := lt_of_le_of_lt hm63 (by norm_num)
  obtain ⟨hb1, hb2⟩ := MSB_spec m (by omega) hm64
  have hk := MSB_pos m hm hm64
  have hk63 : MSB m ≤ 63 := by
    by_contra hcon
    push_neg at hcon
    have h1 : (2 : Nat) ^ 64 ≤ 2 ^ MSB m := Nat.pow_le_pow_right (by norm_num) (by omega)
    omega
  have e1 : MSB m + 1 - 1 = MSB m := by omega
  have e2 : MSB m + 1 - 2 = MSB m - 1 := by omega
  have core := barrett_qhat_bounds m (MSB m + 1) (x_hi * 2 ^ 64 + x_lo) (by omega)
    (by rw [e1]; exact hb1) hb2 (by rw [e2]; exact happ)
  rw [e2] at core
  simp only [BarrettReduce128, Modulus.Value, Modulus.BarrettFactor, Modulus.RightShift,
    MultiplyUInt64]
  have hsplit : x_lo / 2 ^ (MSB m - 1) + x_hi * 2 ^ (64 - (MSB m - 1))
      = (x_hi * 2 ^ 64 + x_lo) / 2 ^ (MSB m - 1) := by
    have e : x_hi * 2 ^ 64 = x_hi * 2 ^ (64 - (MSB m - 1)) * 2 ^ (MSB m - 1) := by
      rw [mul_assoc, ← pow_add]
      congr 2
      omega
    rw [e, Nat.add_comm (x_hi * 2 ^ (64 - (MSB m - 1)) * 2 ^ (MSB m - 1)) x_lo,
      Nat.add_mul_div_right _ _ (pow_pos (by norm_num) _)]
  have hc1lt : (x_hi * 2 ^ 64 + x_lo) / 2 ^ (MSB m - 1) < 2 ^ 64 := by
    have h2 : (2 : Nat) ^ 63 < 2 ^ 64 := by norm_num
    omega
  rw [hsplit, Nat.mod_eq_of_lt hc1lt]
  obtain ⟨hcore1, hcore2⟩ := core
  have hVU : (x_hi * 2 ^ 64 + x_lo)
      - (x_hi * 2 ^ 64 + x_lo) / 2 ^ (MSB m - 1) * (2 ^ (MSB m - 1) * 2 ^ 64 / m) / 2 ^ 64 * m
      + (x_hi * 2 ^ 64 + x_lo) / 2 ^ (MSB m - 1) * (2 ^ (MSB m - 1) * 2 ^ 64 / m) / 2 ^ 64 * m
      = x_hi * 2 ^ 64 + x_lo := Nat.sub_add_cancel hcore1
  have hVlt : (x_hi * 2 ^ 64 + x_lo)
      - (x_hi * 2 ^ 64 + x_lo) / 2 ^ (MSB m - 1) * (2 ^ (MSB m - 1) * 2 ^ 64 / m) / 2 ^ 64 * m
      < 2 ^ 64 := by
    have h2 : (2 : Nat) ^ 63 < 2 ^ 64 := by norm_num
    omega
  have hsub : sub64 x_lo
      ((x_hi * 2 ^ 64 + x_lo) / 2 ^ (MSB m - 1) * (2 ^ (MSB m - 1) * 2 ^ 64 / m) / 2 ^ 64 * m)
      = (x_hi * 2 ^ 64 + x_lo)
        - (x_hi * 2 ^ 64 + x_lo) / 2 ^ (MSB m - 1) * (2 ^ (MSB m - 1) * 2 ^ 64 / m) / 2 ^ 64
          * m := by
    apply sub64_eq _ _ _ hVlt
    rw [hVU, Nat.add_comm (x_hi * 2 ^ 64) x_lo, Nat.add_mul_mod_self_right]
  rw [hsub]
  have hV2m : (x_hi * 2 ^ 64 + x_lo)
      - (x_hi * 2 ^ 64 + x_lo) / 2 ^ (MSB m - 1) * (2 ^ (MSB m - 1) * 2 ^ 64 / m) / 2 ^ 64 * m
      < 2 * m := by omega
  rw [condSub_eq_mod _ _ hV2m]
  conv_rhs => rw [← hVU]
  rw [Nat.add_mul_mod_self_right]

/-! ### Claim theorems -/

/-- C2: for every valid `Modulus` with value `1 < m ≤ 2^63` and every 128-bit
value `x_hi * 2^64 + x_lo` to which the two-constant Barrett scheme applies
(its quotient estimate input `U / 2^(n + beta)` fits below `2^63`),
`BarrettReduce128` returns exactly `U mod m`, a result in `[0, m)`; in
particular with `x_hi = 0`, `x_lo = 300`, modulus value 17 the result is 11
(see the witness). -/
theorem C2_barrettReduce128_exact (m x_hi x_lo : Nat) (M : Modulus)
    (hm : 1 < m) (hm63 : m ≤ 2 ^ 63) (hhi : x_hi < 2 ^ 64) (hlo : x_lo < 2 ^ 64)
    (happ : (x_hi * 2 ^ 64 + x_lo) / 2 ^ (MSB m - 1) ≤ 2 ^ 63)
    (hinit : Modulus.init m = some M) :
    BarrettReduce128 x_hi x_lo M = (x_hi * 2 ^ 64 + x_lo) % m
      ∧ BarrettReduce128 x_hi x_lo M < m := by
  have hm64 : m < 2 ^ 64 := by
    have h1 : (2 : Nat) ^ 63 < 2 ^ 64 := by norm_num
    omega
  rw [init_eq m (by omega) hm64] at hinit
  injection hinit with h
  subst h
  have he := barrettReduce128_eq m x_hi x_lo (by omega) hm63 hhi hlo happ
  exact ⟨he, by rw [he]; exact Nat.mod_lt _ (by omega)⟩

/-- C2 witness: `BarrettReduce128` on `x_hi = 0`, `x_lo = 300` with modulus
value 17 returns `300 mod 17 = 11`. -/
theorem C2_barrettReduce128_witness :
    Modulus.init 17 = some ⟨17, 8680820740569200760, 3⟩ ∧
      BarrettReduce128 0 300 ⟨17, 8680820740569200760, 3⟩ = 11 :=
  ⟨by decide, by
    have h := (C2_barrettReduce128_exact 17 0 300 ⟨17, 8680820740569200760, 3⟩ (by decide)
      (by decide) (by decide) (by decide) (by decide) (by decide)).1
    rw [h]
    norm_num⟩

/-- C1 counterexample: for the 62-bit modulus `m = 4208702145812096516` and
`x = y = m - 1` (both below `m < 2^64`), `MultiplyMod` does not return
`(x * y) mod m`, so the claim's range `1 < m < 2^64` is too generous. -/
theorem C1_counterexample :
    (Modulus.init 4208702145812096516).map
        (MultiplyMod 4208702145812096515 4208702145812096515)
      ≠ some (4208702145812096515 * 4208702145812096515 % 4208702145812096516) := by
  decide

/-- C1 (amended): for every modulus `m` with `1 < m ≤ 2^61` and every
`x, y < m`, `MultiplyMod(x, y, Modulus(m))` equals `(x * y) mod m`; in
particular `MultiplyMod(5, 9, Modulus(17)) = 11` (see the witness). -/
theorem C1_multiplyMod_eq (m x y : Nat) (M : Modulus) (hm : 1 < m) (hm61 : m ≤ 2 ^ 61)
    (hx : x < m) (hy : y < m) (hinit : Modulus.init m = some M) :
    MultiplyMod x y M = x * y % m := by
  have hm64 : m < 2 ^ 64 := by
    have h1 : (2 : Nat) ^ 61 < 2 ^ 64 := by norm_num
    omega
  rw [init_eq m (by omega) hm64] at hinit
  injection hinit with h
  subst h
  have hk := MSB_pos m (by omega) hm64
  obtain ⟨hb1, hb2⟩ := MSB_spec m (by omega) hm64
  have hmm : x * y < m * m := mul_lt_mul'' hx hy (Nat.zero_le x) (Nat.zero_le y)
  have hU : x * y / 2 ^ 64 * 2 ^ 64 + x * y % 2 ^ 64 = x * y := Nat.div_add_mod' _ _
  have hhi : x * y / 2 ^ 64 < 2 ^ 64 := by
    rw [Nat.div_lt_iff_lt_mul (by norm_num)]
    have h2 : m * m ≤ 2 ^ 61 * 2 ^ 61 := Nat.mul_le_mul hm61 hm61
    have h3 : (2 : Nat) ^ 61 * 2 ^ 61 ≤ 2 ^ 64 * 2 ^ 64 := by norm_num
    omega
  have happ : x * y / 2 ^ (MSB m - 1) ≤ 2 ^ 63 := by
    have hstep : x * y < 2 ^ 63 * 2 ^ (MSB m - 1) := by
      have h1 : m * m ≤ 2 ^ 61 * m := Nat.mul_le_mul_right m hm61
      have h2 : (2 : Nat) ^ 61 * m < 2 ^ 61 * 2 ^ (MSB m + 1) :=
        mul_lt_mul_of_pos_left hb2 (by norm_num)
      have h3 : (2 : Nat) ^ 61 * 2 ^ (MSB m + 1) = 2 ^ 63 * 2 ^ (MSB m - 1) := by
        rw [← pow_add, ← pow_add]
        congr 1
        omega
      omega
    have := (Nat.div_lt_iff_lt_mul (pow_pos (show (0:Nat) < 2 by norm_num) (MSB m - 1))).2 hstep
    omega
  simp only [MultiplyMod, MultiplyUInt64]
  conv_rhs => rw [← hU]
  exact barrettReduce128_eq m (x * y / 2 ^ 64) (x * y % 2 ^ 64) (by omega)
    (le_trans hm61 (by norm_num)) hhi (Nat.mod_lt _ (by norm_num)) (by rw [hU]; exact happ)

/-- C1 witness: `MultiplyMod(5, 9, Modulus(17)) = 45 mod 17 = 11`. -/
theorem C1_multiplyMod_witness :
    Modulus.init 17 = some ⟨17, 8680820740569200760, 3⟩ ∧
      MultiplyMod 5 9 ⟨17, 8680820740569200760, 3⟩ = 11 :=
  ⟨by decide, by
    have h := C1_multiplyMod_eq 17 5 9 ⟨17, 8680820740569200760, 3⟩ (by decide) (by decide)
      (by decide) (by decide) (by decide)
    rw [h]⟩

theorem maxv_eq (b : Nat) (hb : b = 32 ∨ b = 52 ∨ b = 64) :
    MaximumValue b = some (2 ^ b - 1) := by
  rcases hb with h | h | h <;> subst h <;> rfl

/-- C3 counterexample: for BitShift 64 with the modulus
`m = 14781698958098616022 > 2^63` all the claim's range preconditions hold,
yet the returned value is neither `y*x - Q*m` (which exceeds `2^64` and is
truncated) nor congruent to `x*y` modulo `m`. -/
theorem C3_counterexample :
    8999703276022534889 < 14781698958098616022
    ∧ 11231132736684270041 = 8999703276022534889 * 2 ^ 64 / 14781698958098616022
    ∧ 14781698958098616022 ≤ 2 ^ 64 - 1
    ∧ 10494692526164835760 ≤ 2 ^ 64 - 1
    ∧ MultiplyModLazy 64 10494692526164835760 8999703276022534889 11231132736684270041
        14781698958098616022 = some 194382308633503742
    ∧ MultiplyModLazy 64 10494692526164835760 8999703276022534889 11231132736684270041
        14781698958098616022
      ≠ some (8999703276022534889 * 10494692526164835760
          - MultiplyUInt64Hi 64 10494692526164835760 11231132736684270041
            * 14781698958098616022)
    ∧ 194382308633503742 % 14781698958098616022
      ≠ 10494692526164835760 * 8999703276022534889 % 14781698958098616022 := by
  decide

/-- C3 (amended): for BitShift in {32, 52, 64} under the stated range
preconditions and additionally `2 * modulus ≤ 2^64` (automatic except for
BitShift 64), `MultiplyModLazy` returns `y_operand * x - Q * modulus` with
`Q` the BitShift-high word of `x * y_barrett_factor`, and that value is
congruent to `x * y_operand` modulo `modulus` and lies in `[0, 2 * modulus]`. -/
theorem C3_multiplyModLazy_eq (b x y bf m : Nat)
    (hb : b = 32 ∨ b = 52 ∨ b = 64)
    (hy : y < m) (hm : m ≤ 2 ^ b - 1) (hx : x ≤ 2 ^ b - 1)
    (h2m : 2 * m ≤ 2 ^ 64)
    (hbf : bf = y * 2 ^ b / m) :
    MultiplyModLazy b x y bf m = some (y * x - MultiplyUInt64Hi b x bf * m)
      ∧ (y * x - MultiplyUInt64Hi b x bf * m) % m = x * y % m
      ∧ y * x - MultiplyUInt64Hi b x bf * m ≤ 2 * m := by
  subst hbf
  have hm0 : 0 < m := by omega
  have hb64 : b ≤ 64 := by rcases hb with h | h | h <;> omega
  have hpb : (0 : Nat) < 2 ^ b := pow_pos (by norm_num) b
  have hxb : x < 2 ^ b := by omega
  have hbf_lt : y * 2 ^ b / m < 2 ^ b := by
    rw [Nat.div_lt_iff_lt_mul hm0]
    calc y * 2 ^ b < m * 2 ^ b := mul_lt_mul_of_pos_right hy hpb
      _ = 2 ^ b * m := mul_comm _ _
  have hq : MultiplyUInt64Hi b x (y * 2 ^ b / m) = x * (y * 2 ^ b / m) / 2 ^ b := by
    unfold MultiplyUInt64Hi
    apply Nat.mod_eq_of_lt
    have h1 : x * (y * 2 ^ b / m) / 2 ^ b < 2 ^ b := by
      rw [Nat.div_lt_iff_lt_mul hpb]
      exact mul_lt_mul'' hxb hbf_lt (Nat.zero_le _) (Nat.zero_le _)
    exact lt_of_lt_of_le h1 (Nat.pow_le_pow_right (by norm_num) hb64)
  have hq_le : x * (y * 2 ^ b / m) / 2 ^ b * m ≤ y * x := by
    have hA : x * (y * 2 ^ b / m) / 2 ^ b * 2 ^ b ≤ x * (y * 2 ^ b / m) :=
      Nat.div_mul_le_self _ _
    have hB : y * 2 ^ b / m * m ≤ y * 2 ^ b := Nat.div_mul_le_self _ _
    have step : x * (y * 2 ^ b / m) / 2 ^ b * m * 2 ^ b ≤ y * x * 2 ^ b := by
      calc x * (y * 2 ^ b / m) / 2 ^ b * m * 2 ^ b
          = x * (y * 2 ^ b / m) / 2 ^ b * 2 ^ b * m := by ring
        _ ≤ x * (y * 2 ^ b / m) * m := Nat.mul_le_mul_right _ hA
        _ = x * (y * 2 ^ b / m * m) := by ring
        _ ≤ x * (y * 2 ^ b) := Nat.mul_le_mul_left _ hB
        _ = y * x * 2 ^ b := by ring
    exact Nat.le_of_mul_le_mul_right step hpb
  have hq_up : y * x < x * (y * 2 ^ b / m) / 2 ^ b * m + 2 * m := by
    have e1 : y * 2 ^ b / m * m + y * 2 ^ b % m = y * 2 ^ b := Nat.div_add_mod' _ _
    have e2 : x * (y * 2 ^ b / m) / 2 ^ b * 2 ^ b + x * (y * 2 ^ b / m) % 2 ^ b
        = x * (y * 2 ^ b / m) := Nat.div_add_mod' _ _
    have hr1 : y * 2 ^ b % m < m := Nat.mod_lt _ hm0
    have hr2 : x * (y * 2 ^ b / m) % 2 ^ b < 2 ^ b := Nat.mod_lt _ hpb
    have key : y * x * 2 ^ b
        = x * (y * 2 ^ b / m) / 2 ^ b * m * 2 ^ b
          + (x * (y * 2 ^ b / m) % 2 ^ b * m + x * (y * 2 ^ b % m)) := by
      calc y * x * 2 ^ b = x * (y * 2 ^ b) := by ring
        _ = x * (y * 2 ^ b / m * m + y * 2 ^ b % m) := by rw [e1]
        _ = x * (y * 2 ^ b / m) * m + x * (y * 2 ^ b % m) := by ring
        _ = (x * (y * 2 ^ b / m) / 2 ^ b * 2 ^ b + x * (y * 2 ^ b / m) % 2 ^ b) * m
            + x * (y * 2 ^ b % m) := by rw [e2]
        _ = _ := by ring
    have t1 : x * (y * 2 ^ b / m) % 2 ^ b * m < 2 ^ b * m :=
      mul_lt_mul_of_pos_right hr2 hm0
    have t2 : x * (y * 2 ^ b % m) < 2 ^ b * m :=
      mul_lt_mul'' hxb hr1 (Nat.zero_le _) (Nat.zero_le _)
    have bnd : x * (y * 2 ^ b / m) % 2 ^ b * m + x * (y * 2 ^ b % m) < 2 * m * 2 ^ b := by
      have := Nat.add_lt_add t1 t2
      calc x * (y * 2 ^ b / m) % 2 ^ b * m + x * (y * 2 ^ b % m)
          < 2 ^ b * m + 2 ^ b * m := this
        _ = 2 * m * 2 ^ b := by ring
    have final : y * x * 2 ^ b < (x * (y * 2 ^ b / m) / 2 ^ b * m + 2 * m) * 2 ^ b := by
      rw [key]
      have expand : (x * (y * 2 ^ b / m) / 2 ^ b * m + 2 * m) * 2 ^ b
          = x * (y * 2 ^ b / m) / 2 ^ b * m * 2 ^ b + 2 * m * 2 ^ b := by ring
      rw [expand]
      omega
    exact Nat.lt_of_mul_lt_mul_right final
  have hVlt : y * x - x * (y * 2 ^ b / m) / 2 ^ b * m < 2 ^ 64 := by omega
  have hsub : sub64 (y * x) (x * (y * 2 ^ b / m) / 2 ^ b * m)
      = y * x - x * (y * 2 ^ b / m) / 2 ^ b * m := by
    apply sub64_eq _ _ _ hVlt
    rw [Nat.sub_add_cancel hq_le]
  refine ⟨?_, ?_, ?_⟩
  · rw [MultiplyModLazy.eq_def, maxv_eq b hb]
    simp only
    rw [if_pos hy, if_pos hm, if_pos hx, hq, hsub]
  · rw [hq, sub_multiple_mod _ _ _ hq_le, mul_comm]
  · rw [hq]
    omega

/-- C3 witness: BitShift 64, `x = 5`, `y = 9`, `m = 17` with the exact
Barrett factor `floor((9 << 64) / 17)`. -/
theorem C3_multiplyModLazy_witness :
    9 < 17
    ∧ 9765923333140350855 = 9 * 2 ^ 64 / 17
    ∧ MultiplyModLazy 64 5 9 9765923333140350855 17
      = some (9 * 5 - MultiplyUInt64Hi 64 5 9765923333140350855 * 17) :=
  ⟨by decide, by decide,
    (C3_multiplyModLazy_eq 64 5 9 9765923333140350855 17 (Or.inr (Or.inr rfl)) (by decide)
      (by decide) (by decide) (by decide) (by decide)).1⟩

/-- C4: with `q_barr = floor(2^64 / modulus)` precomputed, `BarrettReduce64`
with OutputModFactor 2 returns a value congruent to `input` modulo `modulus`
in `[0, 2 * modulus)`, while OutputModFactor 1 applies one conditional
subtraction and returns exactly `input mod modulus`; the call fails when
`modulus = 0`. -/
theorem C4_barrettReduce64_correct (input m q_barr : Nat) (hin : input < 2 ^ 64) :
    (BarrettReduce64 2 input 0 q_barr = none ∧ BarrettReduce64 1 input 0 q_barr = none)
    ∧ (0 < m → q_barr = 2 ^ 64 / m →
        BarrettReduce64 2 input m q_barr
            = some (input - MultiplyUInt64Hi 64 input q_barr * m)
        ∧ (input - MultiplyUInt64Hi 64 input q_barr * m) % m = input % m
        ∧ input - MultiplyUInt64Hi 64 input q_barr * m < 2 * m
        ∧ BarrettReduce64 1 input m q_barr = some (input % m)) := by
  refine ⟨⟨rfl, rfl⟩, ?_⟩
  intro hm0 hqb
  subst hqb
  have hqle : (2 : Nat) ^ 64 / m ≤ 2 ^ 64 := Nat.div_le_self _ _
  have hq_in : input * (2 ^ 64 / m) / 2 ^ 64 ≤ input := by
    calc input * (2 ^ 64 / m) / 2 ^ 64 ≤ input * 2 ^ 64 / 2 ^ 64 :=
          Nat.div_le_div_right (Nat.mul_le_mul_left _ hqle)
      _ = input := Nat.mul_div_cancel _ (by norm_num)
  have hq : MultiplyUInt64Hi 64 input (2 ^ 64 / m) = input * (2 ^ 64 / m) / 2 ^ 64 := by
    unfold MultiplyUInt64Hi
    exact Nat.mod_eq_of_lt (by omega)
  have hq_le : input * (2 ^ 64 / m) / 2 ^ 64 * m ≤ input := by
    have hA : input * (2 ^ 64 / m) / 2 ^ 64 * 2 ^ 64 ≤ input * (2 ^ 64 / m) :=
      Nat.div_mul_le_self _ _
    have hB : 2 ^ 64 / m * m ≤ 2 ^ 64 := Nat.div_mul_le_self _ _
    have step : input * (2 ^ 64 / m) / 2 ^ 64 * m * 2 ^ 64 ≤ input * 2 ^ 64 := by
      calc input * (2 ^ 64 / m) / 2 ^ 64 * m * 2 ^ 64
          = input * (2 ^ 64 / m) / 2 ^ 64 * 2 ^ 64 * m := by ring
        _ ≤ input * (2 ^ 64 / m) * m := Nat.mul_le_mul_right _ hA
        _ = input * (2 ^ 64 / m * m) := by ring
        _ ≤ input * 2 ^ 64 := Nat.mul_le_mul_left _ hB
    exact Nat.le_of_mul_le_mul_right step (by norm_num)
  have hq_up : input < input * (2 ^ 64 / m) / 2 ^ 64 * m + 2 * m := by
    have e1 : 2 ^ 64 / m * m + 2 ^ 64 % m = 2 ^ 64 := Nat.div_add_mod' _ _
    have e2 : input * (2 ^ 64 / m) / 2 ^ 64 * 2 ^ 64 + input * (2 ^ 64 / m) % 2 ^ 64
        = input * (2 ^ 64 / m) := Nat.div_add_mod' _ _
    have hr1 : 2 ^ 64 % m < m := Nat.mod_lt _ hm0
    have hr2 : input * (2 ^ 64 / m) % 2 ^ 64 < 2 ^ 64 := Nat.mod_lt _ (by norm_num)
    have key : input * 2 ^ 64
        = input * (2 ^ 64 / m) / 2 ^ 64 * m * 2 ^ 64
          + (input * (2 ^ 64 / m) % 2 ^ 64 * m + input * (2 ^ 64 % m)) := by
      calc input * 2 ^ 64 = input * (2 ^ 64 / m * m + 2 ^ 64 % m) := by rw [e1]
        _ = input * (2 ^ 64 / m) * m + input * (2 ^ 64 % m) := by ring
        _ = (input * (2 ^ 64 / m) / 2 ^ 64 * 2 ^ 64 + input * (2 ^ 64 / m) % 2 ^ 64) * m
            + input * (2 ^ 64 % m) := by rw [e2]
        _ = _ := by ring
    have t1 : input * (2 ^ 64 / m) % 2 ^ 64 * m < 2 ^ 64 * m :=
      mul_lt_mul_of_pos_right hr2 hm0
    have t2 : input * (2 ^ 64 % m) < 2 ^ 64 * m :=
      mul_lt_mul'' hin hr1 (Nat.zero_le _) (Nat.zero_le _)
    have bnd : input * (2 ^ 64 / m) % 2 ^ 64 * m + input * (2 ^ 64 % m)
        < 2 * m * 2 ^ 64 := by
      have hs := Nat.add_lt_add t1 t2
      calc input * (2 ^ 64 / m) % 2 ^ 64 * m + input * (2 ^ 64 % m)
          < 2 ^ 64 * m + 2 ^ 64 * m := hs
        _ = 2 * m * 2 ^ 64 := by ring
    have final : input * 2 ^ 64 < (input * (2 ^ 64 / m) / 2 ^ 64 * m + 2 * m) * 2 ^ 64 := by
      rw [key]
      have expand : (input * (2 ^ 64 / m) / 2 ^ 64 * m + 2 * m) * 2 ^ 64
          = input * (2 ^ 64 / m) / 2 ^ 64 * m * 2 ^ 64 + 2 * m * 2 ^ 64 := by ring
      rw [expand]
      omega
    exact Nat.lt_of_mul_lt_mul_right final
  have hsub : sub64 input (input * (2 ^ 64 / m) / 2 ^ 64 * m)
      = input - input * (2 ^ 64 / m) / 2 ^ 64 * m := sub64_of_le _ _ hin hq_le
  refine ⟨?_, ?_, ?_, ?_⟩
  · simp only [BarrettReduce64, if_neg (show ¬ m = 0 by omega), if_true]
    rw [hq, hsub]
  · rw [hq, sub_multiple_mod _ _ _ hq_le]
  · rw [hq]
    omega
  · simp only [BarrettReduce64, if_neg (show ¬ m = 0 by omega), if_false]
    rw [hq, hsub, condSub_eq_mod _ _ (by omega), sub_multiple_mod _ _ _ hq_le,
      if_neg (show ¬ (1 : Nat) = 2 by norm_num)]

/-- C4 witness: `input = 300`, modulus 17, `q_barr = floor(2^64 / 17)`:
the OutputModFactor 1 call returns `300 mod 17 = 11`. -/
theorem C4_barrettReduce64_witness :
    0 < 17 ∧ 1085102592571150095 = 2 ^ 64 / 17
    ∧ BarrettReduce64 1 300 17 1085102592571150095 = some (300 % 17) :=
  ⟨by decide, by decide,
    ((C4_barrettReduce64_correct 300 17 1085102592571150095 (by decide)).2
      (by decide) (by decide)).2.2.2⟩

/-- C5: for InputModFactor in {1, 2, 4, 8}, modulus > 0 and
`x < InputModFactor * modulus`, `ReduceMod` returns `x mod modulus` when the
required auxiliary pointers carry `2 * modulus` and `4 * modulus`, and fails
(returns `none`) when a required auxiliary pointer is missing. -/
theorem C5_reduceMod_correct (imf x m : Nat) (tm fm : Option Nat)
    (himf : imf = 1 ∨ imf = 2 ∨ imf = 4 ∨ imf = 8)
    (hm : 0 < m) (hx : x < imf * m)
    (htm : imf = 4 ∨ imf = 8 → tm = some (2 * m))
    (hfm : imf = 8 → fm = some (4 * m)) :
    ReduceMod imf x m tm fm = some (x % m)
    ∧ (ReduceMod 4 x m none fm = none
      ∧ ReduceMod 8 x m none fm = none
      ∧ ReduceMod 8 x m tm none = none) := by
  have cascade : ∀ (z k : Nat), (if k * m ≤ z then z - k * m else z) % m = z % m := by
    intro z k
    by_cases hc : k * m ≤ z
    · rw [if_pos hc, sub_multiple_mod _ _ _ hc]
    · rw [if_neg hc]
  constructor
  · rcases himf with h | h | h | h <;> subst h
    · simp only [ReduceMod]
      norm_num
      rw [Nat.mod_eq_of_lt (by omega)]
    · simp only [ReduceMod]
      norm_num
      rw [condSub_eq_mod _ _ (by omega)]
    · rw [htm (Or.inl rfl)]
      simp only [ReduceMod]
      norm_num
      have h1 : (if 2 * m ≤ x then x - 2 * m else x) < 2 * m := by
        split_ifs <;> omega
      rw [condSub_eq_mod _ _ h1, cascade x 2]
    · rw [htm (Or.inr rfl), hfm rfl]
      simp only [ReduceMod]
      norm_num
      have h2 : (if 2 * m ≤ (if 4 * m ≤ x then x - 4 * m else x)
          then (if 4 * m ≤ x then x - 4 * m else x) - 2 * m
          else (if 4 * m ≤ x then x - 4 * m else x)) < 2 * m := by
        split_ifs <;> omega
      rw [condSub_eq_mod _ _ h2, cascade _ 2, cascade x 4]
  · refine ⟨rfl, ?_, ?_⟩
    · rcases fm with _ | v <;> rfl
    · rcases tm with _ | v <;> rfl

/-- C5 witness: InputModFactor 8, modulus 5, `x = 37 < 40`, with
`twice_modulus = 10` and `four_times_modulus = 20`: the cascade returns
`37 mod 5 = 2`, while dropping a required pointer yields a failure. -/
theorem C5_reduceMod_witness :
    0 < 5 ∧ 37 < 8 * 5
    ∧ ReduceMod 8 37 5 (some 10) (some 20) = some (37 % 5)
    ∧ ReduceMod 8 37 5 (some 10) none = none :=
  ⟨by decide, by decide,
    (C5_reduceMod_correct 8 37 5 (some 10) (some 20)
      (Or.inr (Or.inr (Or.inr rfl))) (by decide) (by decide)
      (fun _ => rfl) (fun _ => rfl)).1,
    (C5_reduceMod_correct 8 37 5 (some 10) (some 20)
      (Or.inr (Or.inr (Or.inr rfl))) (by decide) (by decide)
      (fun _ => rfl) (fun _ => rfl)).2.2.2⟩

/-- C6 counterexample: with `operand = modulus = 1` and `bit_shift = 64`
(inputs the claim allows), the mathematical value
`floor((operand << bit_shift) / modulus) = 2^64` does not fit the stored
64-bit field: the constructor stores its low word 0 instead. -/
theorem C6_counterexample :
    (1 : Nat) ≤ 1
    ∧ (MultiplyFactor.make 1 64 1).map MultiplyFactor.BarrettFactor
      ≠ some (1 * 2 ^ 64 / 1) := by
  decide

/-- C6 (amended): for `1 ≤ modulus`, `operand ≤ modulus` and
`bit_shift ∈ {32, 52, 64}`, the constructed `MultiplyFactor` stores the
operand and the low 64-bit word of `floor((operand << bit_shift) / modulus)`
(equal to the full quotient whenever `operand < modulus`, the truncation
only occurring at `operand = modulus` with `bit_shift = 64`); construction
fails with a validation error if `operand > modulus` or `bit_shift` is
outside `{32, 52, 64}`. -/
theorem C6_multiplyFactor_correct (operand bit_shift modulus : Nat)
    (hop : operand ≤ modulus) (hm : 0 < modulus)
    (hbs : bit_shift = 32 ∨ bit_shift = 52 ∨ bit_shift = 64) :
    MultiplyFactor.make operand bit_shift modulus
        = some ⟨operand, operand * 2 ^ bit_shift / modulus % 2 ^ 64⟩
    ∧ (MultiplyFactor.make operand bit_shift modulus).map MultiplyFactor.Operand
        = some operand
    ∧ (MultiplyFactor.make operand bit_shift modulus).map MultiplyFactor.BarrettFactor
        = some (operand * 2 ^ bit_shift / modulus % 2 ^ 64)
    ∧ (operand < modulus →
        operand * 2 ^ bit_shift / modulus % 2 ^ 64 = operand * 2 ^ bit_shift / modulus)
    ∧ (∀ o mz, mz < o → MultiplyFactor.make o bit_shift mz = none)
    ∧ (∀ o b2 mz, b2 ≠ 32 → b2 ≠ 52 → b2 ≠ 64 → MultiplyFactor.make o b2 mz = none) := by
  have hbs64 : bit_shift ≤ 64 := by rcases hbs with h | h | h <;> omega
  have hmk := make_eq operand bit_shift modulus hop hbs
  refine ⟨hmk, ?_, ?_, ?_, ?_, ?_⟩
  · rw [hmk]
    rfl
  · rw [hmk]
    rfl
  · intro hlt
    exact factor_no_trunc operand bit_shift modulus hlt hbs64
  · intro o mz hlt
    simp only [MultiplyFactor.make, if_neg (show ¬ o ≤ mz by omega)]
  · intro o b2 mz h32 h52 h64
    simp only [MultiplyFactor.make]
    by_cases hc : o ≤ mz
    · rw [if_pos hc, if_neg (by rintro (h | h | h) <;> contradiction)]
    · rw [if_neg hc]

/-- C6 witness: `operand = 9`, `bit_shift = 64`, `modulus = 17` stores the
full quotient `floor((9 << 64) / 17)`. -/
theorem C6_multiplyFactor_witness :
    (9 : Nat) ≤ 17
    ∧ MultiplyFactor.make 9 64 17 = some ⟨9, 9 * 2 ^ 64 / 17 % 2 ^ 64⟩
    ∧ MultiplyFactor.make 10 64 9 = none :=
  ⟨by decide,
    (C6_multiplyFactor_correct 9 64 17 (by decide) (by decide) (Or.inr (Or.inr rfl))).1,
    (C6_multiplyFactor_correct 9 64 17 (by decide) (by decide)
      (Or.inr (Or.inr rfl))).2.2.2.2.1 10 9 (by decide)⟩

/-- C7: for BitShift in {52, 64} under the range preconditions, the
two-operand overload of `MultiplyModLazy` returns the same value as the
precomputed-factor overload called with
`y_barrett_factor = floor((y << BitShift) / modulus)`. -/
theorem C7_multiplyModLazy2_refines (b x y m : Nat)
    (hb : b = 52 ∨ b = 64) (hy : y < m) (hx : x ≤ 2 ^ b - 1) (hm : m ≤ 2 ^ b - 1) :
    MultiplyModLazy2 b x y m = MultiplyModLazy b x y (y * 2 ^ b / m) m := by
  have hb3 : b = 32 ∨ b = 52 ∨ b = 64 := by tauto
  have hb64 : b ≤ 64 := by rcases hb with h | h <;> omega
  have hbcond : b = 64 ∨ b = 52 := by tauto
  have hmk := make_eq y b m (le_of_lt hy) hb3
  have hnt := factor_no_trunc y b m hy hb64
  simp only [MultiplyModLazy2, if_pos hbcond, maxv_eq b hb3]
  rw [if_pos hx, if_pos hy, if_pos hm, hmk]
  simp only [MultiplyFactor.BarrettFactor]
  rw [hnt]

/-- C7 witness: both overloads agree at BitShift 64, `x = 5`, `y = 9`,
`m = 17`. -/
theorem C7_multiplyModLazy2_witness :
    MultiplyModLazy2 64 5 9 17 = MultiplyModLazy 64 5 9 (9 * 2 ^ 64 / 17) 17 :=
  C7_multiplyModLazy2_refines 64 5 9 17 (Or.inr rfl) (by decide) (by decide) (by decide)

/-- C8: every `Modulus` built from a value `1 < v < 2^64` has all three
fields determined by `v` alone: `Value() = v`,
`RightShift() = floor(log2 v) + 1 - 2`, and
`BarrettFactor() = floor(((1 << (floor(log2 v) + 1 + 62 - 64)) << 64) / v)`;
construction is a pure function of `v`, so re-initialising from the same
value reproduces identical fields. -/
theorem C8_modulus_invariant (v : Nat) (hv : 1 < v) (hv64 : v < 2 ^ 64) :
    MSB v = Nat.log2 v
    ∧ Modulus.init v
        = some ⟨v, 2 ^ (MSB v + 1 + 62 - 64) * 2 ^ 64 / v, MSB v + 1 - 2⟩
    ∧ (Modulus.init v).map Modulus.Value = some v
    ∧ (Modulus.init v).map Modulus.RightShift = some (MSB v + 1 - 2)
    ∧ (Modulus.init v).map Modulus.BarrettFactor
        = some (2 ^ (MSB v + 1 + 62 - 64) * 2 ^ 64 / v) := by
  have hlog := MSB_eq_log2 v (by omega) hv64
  have hk := MSB_pos v (by omega) hv64
  have e1 : MSB v + 1 + 62 - 64 = MSB v - 1 := by omega
  have e2 : MSB v + 1 - 2 = MSB v - 1 := by omega
  rw [e1, e2, init_eq v (by omega) hv64]
  exact ⟨hlog, rfl, rfl, rfl, rfl⟩

/-- C8 witness: `v = 17` gives `RightShift() = 3` and
`BarrettFactor() = floor(2^67 / 17) = 8680820740569200760`. -/
theorem C8_modulus_witness :
    Modulus.init 17
        = some ⟨17, 2 ^ (MSB 17 + 1 + 62 - 64) * 2 ^ 64 / 17, MSB 17 + 1 - 2⟩
    ∧ MSB 17 + 1 - 2 = 3
    ∧ 2 ^ (MSB 17 + 1 + 62 - 64) * 2 ^ 64 / 17 = 8680820740569200760 :=
  ⟨(C8_modulus_invariant 17 (by norm_num) (by norm_num)).2.1, by decide, by decide⟩

/-- C9: `MaximumValue(bits)` returns `2^bits - 1` for every `bits ≤ 64`
(equal to `2^64 - 1` at `bits = 64`) and fails with a validation error for
every `bits > 64`. -/
theorem C9_maximumValue_correct (bits : Nat) :
    (bits ≤ 64 → MaximumValue bits = some (2 ^ bits - 1))
    ∧ (64 < bits → MaximumValue bits = none) := by
  constructor
  · intro h
    by_cases h64 : bits = 64
    · subst h64
      rfl
    · simp only [MaximumValue, if_pos h, if_neg h64]
  · intro h
    simp only [MaximumValue, if_neg (show ¬ bits ≤ 64 by omega)]

/-- C9 witness: `MaximumValue(64) = 2^64 - 1` and `MaximumValue(65)` fails. -/
theorem C9_maximumValue_witness :
    MaximumValue 64 = some (2 ^ 64 - 1) ∧ MaximumValue 65 = none :=
  ⟨(C9_maximumValue_correct 64).1 (by norm_num), (C9_maximumValue_correct 65).2 (by norm_num)⟩

/-- C10: for 64-bit operands, `AddUInt64` stores `(a + b) mod 2^64` through
the result pointer and returns carry 1 exactly when `a + b ≥ 2^64`, else 0
(the pair below is (carry, stored sum)). -/
theorem C10_addUInt64_correct (a b : Nat) (ha : a < 2 ^ 64) (hb : b < 2 ^ 64) :
    AddUInt64 a b = (if 2 ^ 64 ≤ a + b then 1 else 0, (a + b) % 2 ^ 64) := by
  simp only [AddUInt64, Prod.mk.injEq]
  refine ⟨?_, trivial⟩
  by_cases hc : 2 ^ 64 ≤ a + b
  · rw [if_pos hc, if_pos (show (a + b) % 2 ^ 64 < a by omega)]
  · rw [if_neg hc, if_neg (show ¬ (a + b) % 2 ^ 64 < a by omega)]

/-- C10 witness: `2^63 + 2^63` wraps to 0 with carry 1. -/
theorem C10_addUInt64_witness :
    2 ^ 63 < 2 ^ 64 ∧ AddUInt64 (2 ^ 63) (2 ^ 63) = (1, 0) :=
  ⟨by norm_num, by
    rw [C10_addUInt64_correct (2 ^ 63) (2 ^ 63) (by norm_num) (by norm_num)]
    norm_num⟩

end Hexl
